import Mathlib

set_option maxRecDepth 8192
set_option exponentiation.threshold 2000

/-!
Shallow embedding of `chain.py` (a minimal single-node blockchain ledger).

Conventions of the embedding:
* Python byte strings are `List Nat` (one entry per byte).
* The SHA digest is idealized as a collision-free hash: a `Digest` is modelled
  by the byte stream that was fed into it, so two digests are equal exactly
  when the hashed streams are equal.  `hexdigest` is correspondingly an
  injective string rendering of the digest.
* Python exceptions are modelled with `Except PyErr` for pure helpers; the
  stateful `Chain` methods return `Chain × Option PyErr`, the final state
  together with the exception (if any) that escaped — this mirrors in-place
  mutation where updates performed before an exception persist.
* The RSA-PSS signature scheme is idealized as a perfect scheme: keys are
  indexed by `Nat`, a signature is determined by the signing key and the
  hashed message, and verification succeeds exactly for a matching key.
* The wall clock (`now_in_millisecond`) is passed to `Chain.transact` as an
  explicit `now` argument.
-/

/-- Python byte strings, one `Nat` per byte. -/
abbrev Bytes := List Nat

/-- The Python exceptions that the embedded code can raise. -/
inductive PyErr where
  | overflowError
  | typeError
  | keyError
  | valueError
  | indexError
  | attributeError
deriving DecidableEq

/-- Idealized SHA digest object: collision-free, so modelled by the byte
stream that was hashed into it. -/
structure Digest where
  msg : Bytes
deriving DecidableEq

/-- The field types accepted by `HASH` in `chain.py`: `str`, `int` and
`bytes` values (any other type raises `TypeError`, which cannot occur for
the values that flow through this program). -/
inductive HVal where
  | str (s : String)
  | int (i : Int)
  | bytes (b : Bytes)
deriving DecidableEq

/-- Big-endian fixed-width byte encoding of a natural number: the model of
Python's `n.to_bytes(length, byteorder='big')` once `n` is known to be in
range. -/
def beBytes : Nat → Nat → Bytes
  | 0, _ => []
  | n + 1, v => beBytes n (v / 256) ++ [v % 256]

/-- Model of `str.encode()`: the (injective) byte encoding of a string,
rendered here as the list of code points. -/
def encodeStr (s : String) : Bytes := s.data.map Char.toNat

/-- How `HASH` serializes one argument (`chain.py` lines 19-26):
strings via `encode()`, ints via `to_bytes(length=128, byteorder='big')`
— which raises `OverflowError` for a negative int or one that does not fit
in 128 bytes — and bytes unchanged. -/
def encodeField : HVal → Except PyErr Bytes
  | .str s => .ok (encodeStr s)
  | .int i =>
      if 0 ≤ i ∧ i < Int.ofNat (2 ^ 1024) then .ok (beBytes 128 i.toNat)
      else .error .overflowError
  | .bytes b => .ok b

/-- Serialize a list of `HASH` arguments left to right, propagating the
first exception (the `for` loop in `HASH`). -/
def encodeFields : List HVal → Except PyErr (List Bytes)
  | [] => .ok []
  | a :: as =>
    match encodeField a, encodeFields as with
    | .ok b, .ok bs => .ok (b :: bs)
    | .error e, _ => .error e
    | .ok _, .error e => .error e

/-- `HASH(*args)` (`chain.py` lines 17-27): feed the serialized arguments
into a fresh SHA object.  In the idealized model the digest is the
concatenated stream. -/
def HASH (args : List HVal) : Except PyErr Digest :=
  match encodeFields args with
  | .ok l => .ok ⟨l.flatten⟩
  | .error e => .error e

/-- `hexdigest()` of a digest: an injective string rendering (the real code
prints two hex characters per byte; the model renders the idealized digest
one character per byte, which is just as deterministic). -/
def Digest.hexdigest (d : Digest) : String := ⟨d.msg.map Char.ofNat⟩

/-- `digest()` of a digest: its binary representation. -/
def Digest.digestBytes (d : Digest) : Bytes := d.msg

/-- `tree_hash(*args)` (`chain.py` lines 30-31): `HASH(*args).hexdigest()`. -/
def tree_hash (args : List HVal) : Except PyErr String :=
  (HASH args).map Digest.hexdigest

/-- Model of `key_to_public_hex`: the public address (a hex string) derived
from RSA key number `k`. -/
def key_to_public_hex (k : Nat) : String := ⟨Nat.toDigits 10 k⟩

/-- Idealized `pss.new(key).sign(prehash)`: the signature is determined by
the signing key and the hashed message. -/
def signBytes (key : Nat) (d : Digest) : Bytes := key :: d.msg

/-- Idealized `pss.new(public_hex_to_key(pub)).verify(prehash, sig)` wrapped
in `try/except` as in `Tx.isValid`: true exactly when `sig` was produced
over `d` by the key whose public address is `pubHex`; never raises. -/
def verifySig (pubHex : String) (d : Digest) (sig : Bytes) : Bool :=
  match sig with
  | k :: m => if key_to_public_hex k = pubHex ∧ m = d.msg then true else false
  | [] => false

/-- A transaction object (`class Tx`, `chain.py` lines 54-138).
`prehash` is `_prehash`, `txhash` is `_hash` (None until signed). -/
structure Tx where
  «by» : String
  «to» : String
  amount : Int
  msg : HVal
  signature : Option Bytes
  prehash : Digest
  txhash : Option Digest
deriving DecidableEq

/-- `Tx.__init__` (`chain.py` lines 81-88): store the four data fields,
compute `_prehash = HASH(by, to, amount, msg)` immediately (which raises
`OverflowError` when `amount` — or an int `msg` — is negative or too wide
for the 128-byte serialization), leave `signature` and `_hash` unset. -/
def Tx.init («by» «to» : String) (amount : Int) (msg : HVal) : Except PyErr Tx :=
  (HASH [.str «by», .str «to», .int amount, msg]).map
    (fun d => ⟨«by», «to», amount, msg, none, d, none⟩)

/-- `Tx.isSigned` (`chain.py` lines 91-92). -/
def Tx.isSigned (tx : Tx) : Bool := tx.signature.isSome

/-- `Tx.isValid` (`chain.py` lines 95-103): false if unsigned, otherwise
verify the signature over `_prehash` against the sender's public address,
returning false (never raising) when verification fails. -/
def Tx.isValid (tx : Tx) : Bool :=
  match tx.signature with
  | none => false
  | some sig => verifySig tx.«by» tx.prehash sig

/-- `Tx.sign` (`chain.py` lines 106-110): set `signature`, then compute
`_hash = HASH(by, to, amount, signature, msg)`. -/
def Tx.sign (tx : Tx) (key : Nat) : Except PyErr Tx :=
  let sig := signBytes key tx.prehash
  (HASH [.str tx.«by», .str tx.«to», .int tx.amount, .bytes sig, tx.msg]).map
    (fun d => ⟨tx.«by», tx.«to», tx.amount, tx.msg, some sig, tx.prehash, some d⟩)

/-- `Tx.hash` property (`chain.py` lines 118-121): the binary digest of
`_hash`; accessing it on an unsigned transaction raises `AttributeError`
(`_hash` is `None`). -/
def Tx.hashBytes (tx : Tx) : Except PyErr Bytes :=
  match tx.txhash with
  | none => .error .attributeError
  | some d => .ok d.msg

/-- The left fold inside `hash_txs`: `reduce(lambda x, y: tree_hash(x, y), ...)`
after the first element has been taken.  The accumulator is a `str` after the
first combination (a `bytes` value before it). -/
def hashTxsFold (acc : HVal) : List Tx → Except PyErr HVal
  | [] => .ok acc
  | tx :: rest =>
    match tx.hashBytes with
    | .error e => .error e
    | .ok hb =>
      match tree_hash [acc, .bytes hb] with
      | .error e => .error e
      | .ok s => hashTxsFold (.str s) rest

/-- `hash_txs(*txs)` (`chain.py` lines 141-142): left fold of `tree_hash`
over the transactions' binary id-hashes; `reduce` over an empty sequence
raises `TypeError`; a single transaction yields its raw `bytes` hash. -/
def hash_txs : List Tx → Except PyErr HVal
  | [] => .error .typeError
  | tx :: rest =>
    match tx.hashBytes with
    | .error e => .error e
    | .ok hb => hashTxsFold (.bytes hb) rest

/-- A block header (`class BlockHeader`, `chain.py` lines 146-179).
`prevhash` and `roothash` are heterogeneous in the source (`0` for genesis,
hex `str` or raw `bytes` otherwise), hence `HVal`.  `hdigest` is `_hash`,
computed in `__init__`. -/
structure BlockHeader where
  prevhash : HVal
  roothash : HVal
  timestamp : Int
  nouce : Int
  hdigest : Digest
deriving DecidableEq

/-- `BlockHeader.__init__` (`chain.py` lines 155-160): store the four fields
and compute `_hash = HASH(prevhash, roothash, timestamp, nouce)`. -/
def BlockHeader.init (prevhash roothash : HVal) (timestamp nouce : Int) :
    Except PyErr BlockHeader :=
  (HASH [prevhash, roothash, .int timestamp, .int nouce]).map
    (fun d => ⟨prevhash, roothash, timestamp, nouce, d⟩)

/-- `BlockHeader.hash` property: binary digest of the header. -/
def BlockHeader.hashBytes (h : BlockHeader) : Bytes := h.hdigest.msg

/-- `BlockHeader.hexhash` property: hex digest of the header. -/
def BlockHeader.hexhash (h : BlockHeader) : String := h.hdigest.hexdigest

/-- A full block (`class Block`, `chain.py` lines 183-206): a header plus
the list of its transactions.  The source also copies `hash`/`hexhash` of
the header onto the block; those are the derived accessors below. -/
structure Block where
  header : BlockHeader
  transactions : List Tx
deriving DecidableEq

/-- `Block.__init__` (`chain.py` lines 190-194): build the header from the
four metadata fields and keep the transaction list. -/
def Block.init (prevhash roothash : HVal) (timestamp nouce : Int)
    (transactions : List Tx) : Except PyErr Block :=
  (BlockHeader.init prevhash roothash timestamp nouce).map
    (fun h => ⟨h, transactions⟩)

/-- `Block.hexhash` attribute (copied from the header in `__init__`). -/
def Block.hexhash (b : Block) : String := b.header.hexhash

/-- `Block.hash` attribute (copied from the header in `__init__`). -/
def Block.hashBytes (b : Block) : Bytes := b.header.hashBytes

/-- `Block.tx_count` (`chain.py` lines 197-198). -/
def Block.tx_count (b : Block) : Nat := b.transactions.length

/-- The balance mapping `addr`: a Python dict from public address to
balance, modelled as an association list with unique keys kept in insertion
order. -/
abbrev Dict := List (String × Int)

/-- Dict lookup `m[k]`, returning `none` where Python raises `KeyError`. -/
def dictGet : Dict → String → Option Int
  | [], _ => none
  | (k', v) :: rest, k => if k' = k then some v else dictGet rest k

/-- Dict store `m[k] = v`: replace the existing entry in place, or append a
new entry. -/
def dictSet : Dict → String → Int → Dict
  | [], k, v => [(k, v)]
  | (k', v') :: rest, k, v =>
    if k' = k then (k, v) :: rest else (k', v') :: dictSet rest k v

/-- The chain (`class Chain`, `chain.py` lines 210-269): the block list,
the pending transaction buffer `txs`, and the balance mapping `addr`
(`None` for a non-configured chain). -/
structure Chain where
  blocks : List Block
  txs : List Tx
  addr : Option Dict
deriving DecidableEq

/-- `Chain.tx_limit` (`chain.py` line 212). -/
def Chain.tx_limit : Nat := 10

/-- `Chain.__init__` (`chain.py` lines 214-221): one genesis block
`Block(0, 0, timestamp, 0, [])`, an empty pending buffer, and the given
balance mapping. -/
def Chain.init (timestamp : Int) (addr : Option Dict) : Except PyErr Chain :=
  (Block.init (.int 0) (.int 0) timestamp 0 []).map (fun g => ⟨[g], [], addr⟩)

/-- `Chain.isValid` (`chain.py` lines 224-226). -/
def Chain.isValid (c : Chain) : Bool := c.addr.isSome

/-- `Chain.validateTx` (`chain.py` lines 229-231):
`tx.isValid() and self.addr[tx.by] >= tx.amount`.  The `and` short-circuits,
so an invalid signature yields `False`; otherwise the balance lookup is
performed and raises `KeyError` when the sender has no entry (`TypeError`
when `addr` is `None`). -/
def Chain.validateTx (c : Chain) (tx : Tx) : Except PyErr Bool :=
  if tx.isValid then
    match c.addr with
    | none => .error .typeError
    | some m =>
      match dictGet m tx.«by» with
      | none => .error .keyError
      | some bal => .ok (decide (tx.amount ≤ bal))
  else .ok false

/-- `Chain.validateBlock` (`chain.py` lines 234-237).  The body reads
`block.prevhash`, `block.timestamp` and `parent_block.hexhash`,
`parent_block.timestamp` — attributes that exist on `BlockHeader` values
but not on `Block` values (a `Block` keeps them under `.header`), so the
embedding types the two parameters as headers; calling the source method on
`Block` arguments raises `AttributeError`.  The Python `==` between values
of different types (int `0` vs `str`) is `False`, matching `HVal` equality
across constructors. -/
def Chain.validateBlock (block parent_block : BlockHeader) : Bool :=
  let valid_hash := decide (block.prevhash = HVal.str parent_block.hexhash)
  let valid_time := decide (parent_block.timestamp ≤ block.timestamp)
  valid_hash && valid_time

/-- The `try/except KeyError` block of `Chain.transact` (`chain.py` lines
248-252): debit the sender, credit the receiver; if a lookup raises
`KeyError` the handler runs `self.addr[tx.«to»] = amount` instead. -/
def debitCredit (m : Dict) (byA toA : String) (amount : Int) : Dict :=
  match dictGet m byA with
  | none => dictSet m toA amount
  | some balBy =>
    let m1 := dictSet m byA (balBy - amount)
    match dictGet m1 toA with
    | none => dictSet m1 toA amount
    | some balTo => dictSet m1 toA (balTo + amount)

/-- `Chain.last_block` property (`chain.py` lines 267-269): `blocks[-1]`,
`none` where Python would raise `IndexError`. -/
def Chain.last_block (c : Chain) : Option Block := c.blocks.getLast?

/-- `Chain.addBlock` (`chain.py` lines 260-264): compute the root hash of
the pending buffer, build `Block(last_block.hexhash, root_hash, timestamp, 0,
txs)`, append it, clear the buffer.  An exception leaves the chain as it
was (nothing has been mutated yet when one is raised). -/
def Chain.addBlock (c : Chain) (timestamp : Int) : Chain × Option PyErr :=
  match hash_txs c.txs with
  | .error e => (c, some e)
  | .ok root_hash =>
    match c.last_block with
    | none => (c, some .indexError)
    | some lb =>
      match Block.init (.str lb.hexhash) root_hash timestamp 0 c.txs with
      | .error e => (c, some e)
      | .ok nb => (⟨c.blocks ++ [nb], [], c.addr⟩, none)

/-- `Chain.transact` (`chain.py` lines 240-257): resolve the sender address
(`by or key_to_public_hex(key)`, so `None` and the empty string both fall
back to the key's address), build and sign the transaction, validate it
(raising the validator's exception, or `ValueError('invalid tx')` when
validation returns false), then debit/credit, append to the pending buffer,
and seal a block via `addBlock(now)` when the buffer reaches `tx_limit`.
The first component of the result is the chain state after the call — also
on the error paths, where every mutation already performed persists. -/
def Chain.transact (c : Chain) (now : Int) (key : Nat) («to» : String)
    (amount : Int) (msg : HVal) (byArg : Option String) : Chain × Option PyErr :=
  let b := match byArg with
    | none => key_to_public_hex key
    | some s => if s = "" then key_to_public_hex key else s
  match Tx.init b «to» amount msg with
  | .error e => (c, some e)
  | .ok tx0 =>
    match tx0.sign key with
    | .error e => (c, some e)
    | .ok tx =>
      match c.validateTx tx with
      | .error e => (c, some e)
      | .ok false => (c, some .valueError)
      | .ok true =>
        match c.addr with
        | none => (c, some .typeError)
        | some m =>
          let m' := debitCredit m tx.«by» tx.«to» amount
          let c1 : Chain := ⟨c.blocks, c.txs ++ [tx], some m'⟩
          if (c.txs ++ [tx]).length = Chain.tx_limit then
            c1.addBlock now
          else (c1, none)

/-- Balance of address `k` on chain `c` (read accessor over `addr`). -/
def addrGet (c : Chain) (k : String) : Option Int :=
  c.addr.bind (fun m => dictGet m k)

/-- All balances in a mapping are non-negative (decidable form). -/
def dictNonNeg (m : Dict) : Bool := m.all (fun p => decide (0 ≤ p.2))

/-- Adjacent blocks are hash-linked: each block's `prevhash` is the hex
header hash of its immediate predecessor (decidable form). -/
def linkedB : List Block → Bool
  | [] => true
  | [_] => true
  | b1 :: b2 :: rest =>
    decide (b2.header.prevhash = HVal.str b1.hexhash) && linkedB (b2 :: rest)

/-- Zero or more accepted submissions: each step is a `transact` call that
returned without an exception. -/
inductive Steps : Chain → Chain → Prop
  | refl (c : Chain) : Steps c c
  | tail {c c' c'' : Chain} (now : Int) (key : Nat) («to» : String)
      (amount : Int) (msg : HVal) (byArg : Option String) :
      Steps c c' → c'.transact now key «to» amount msg byArg = (c'', none) →
      Steps c c''

/-- One submission request, as issued by the demo callers: the clock value
observed during the call plus the `transact` arguments (sender resolved
from the key, i.e. `by=None`). -/
structure SubReq where
  now : Int
  key : Nat
  «to» : String
  amount : Int
  msg : HVal
deriving DecidableEq

/-- Run a list of submissions in order, stopping at the first exception. -/
def runSubs (c : Chain) : List SubReq → Chain × Option PyErr
  | [] => (c, none)
  | r :: rs =>
    match c.transact r.now r.key r.«to» r.amount r.msg none with
    | (c', none) => runSubs c' rs
    | (c', some e) => (c', some e)

/-- A submission is locally valid at state `c`: clock and amount fit the
128-byte int serialization, the message is hashable, and the sender's
balance covers the amount. -/
def stepValid (c : Chain) (r : SubReq) : Bool :=
  decide (0 ≤ r.now) && decide (r.now < Int.ofNat (2 ^ 1024)) &&
  decide (0 ≤ r.amount) && decide (r.amount < Int.ofNat (2 ^ 1024)) &&
  (encodeField r.msg).isOk &&
  (match c.addr with
   | some m =>
     match dictGet m (key_to_public_hex r.key) with
     | some bal => decide (r.amount ≤ bal)
     | none => false
   | none => false)

/-- Every submission in the list is locally valid at the state where it is
issued. -/
def allValid : Chain → List SubReq → Bool
  | _, [] => true
  | c, r :: rs =>
    stepValid c r && allValid (c.transact r.now r.key r.«to» r.amount r.msg none).1 rs

/-- Decidable equality for `Except` results, used by the decidable
specification predicates below. -/
instance exceptDecEq {ε α : Type} [DecidableEq ε] [DecidableEq α] :
    DecidableEq (Except ε α) := fun a b =>
  match a, b with
  | .error e, .error e' =>
    if h : e = e' then .isTrue (by rw [h])
    else .isFalse (by intro hh; cases hh; exact h rfl)
  | .ok x, .ok y =>
    if h : x = y then .isTrue (by rw [h])
    else .isFalse (by intro hh; cases hh; exact h rfl)
  | .error _, .ok _ => .isFalse (by intro hh; cases hh)
  | .ok _, .error _ => .isFalse (by intro hh; cases hh)

/-- `post` extends `pre` by exactly one sealed block holding a full batch
whose header `roothash` is the `hash_txs` aggregation of the batch, with
the pending buffer cleared (decidable form). -/
def sealCheck (pre post : Chain) : Bool :=
  decide (post.txs = []) &&
  decide (post.blocks.dropLast = pre.blocks) &&
  (match post.blocks.getLast? with
   | some b =>
     decide (b.transactions.length = Chain.tx_limit) &&
     decide (hash_txs b.transactions = .ok b.header.roothash)
   | none => false)

/-- No proper prefix of the submission list errored or produced a block
(decidable form). -/
def noEarlySeal (c : Chain) (rs : List SubReq) : Bool :=
  (List.range rs.length).all (fun k =>
    decide ((runSubs c (rs.take k)).1.blocks = c.blocks) &&
    decide ((runSubs c (rs.take k)).2 = none))

/-- A freshly initialized ledger over the given balances (timestamp 0), as
produced by `Chain.__init__`. -/
def initChain (m : Dict) : Chain :=
  (Chain.init 0 (some m)).toOption.getD ⟨[], [], none⟩

/-- Ten identical valid submissions from key 7 (a full batch). -/
def c5batch : List SubReq := List.replicate 10 ⟨1, 7, "9", 1, .int 0⟩

/-- Nine identical valid submissions from key 7 (one short of a batch). -/
def burst9 : List SubReq := List.replicate 9 ⟨1, 7, "9", 1, .int 0⟩

/-- The ledger state after nine accepted submissions: pending holds nine
transactions, so the next accepted submission seals a block. -/
def chain9 : Chain := (runSubs (initChain [("7", 100)]) burst9).1

/-! ### Lemmas about the balance dictionary -/

theorem dictGet_dictSet_self (m : Dict) (k : String) (v : Int) :
    dictGet (dictSet m k v) k = some v := by
  induction m with
  | nil => simp [dictGet, dictSet]
  | cons p rest ih =>
    obtain ⟨a, b⟩ := p
    by_cases h : a = k
    · subst h
      simp [dictGet, dictSet]
    · simp [dictGet, dictSet, h, ih]

theorem dictGet_dictSet_ne (m : Dict) (k k' : String) (v : Int) (hne : k' ≠ k) :
    dictGet (dictSet m k v) k' = dictGet m k' := by
  induction m with
  | nil => simp [dictGet, dictSet, Ne.symm hne]
  | cons p rest ih =>
    obtain ⟨a, b⟩ := p
    by_cases h : a = k
    · subst h
      simp [dictGet, dictSet, Ne.symm hne]
    · simp [dictGet, dictSet, h, ih]

theorem dictSet_of_get_eq (m : Dict) (k : String) (v : Int)
    (h : dictGet m k = some v) : dictSet m k v = m := by
  induction m with
  | nil => simp [dictGet] at h
  | cons p rest ih =>
    obtain ⟨a, b⟩ := p
    by_cases hk : a = k
    · subst hk
      simp [dictGet] at h
      simp [dictSet, h]
    · simp [dictGet, hk] at h
      simp [dictSet, hk, ih h]

theorem dictSet_dictSet (m : Dict) (k : String) (v v' : Int) :
    dictSet (dictSet m k v) k v' = dictSet m k v' := by
  induction m with
  | nil => simp [dictSet]
  | cons p rest ih =>
    obtain ⟨a, b⟩ := p
    by_cases h : a = k
    · subst h
      simp [dictSet]
    · simp [dictSet, h, ih]

theorem dictGet_mem {m : Dict} {k : String} {v : Int}
    (h : dictGet m k = some v) : (k, v) ∈ m := by
  induction m with
  | nil => simp [dictGet] at h
  | cons p rest ih =>
    obtain ⟨a, b⟩ := p
    by_cases hk : a = k
    · subst hk
      simp [dictGet] at h
      simp [h]
    · simp [dictGet, hk] at h
      exact List.mem_cons_of_mem _ (ih h)

theorem mem_dictSet {m : Dict} {k : String} {v : Int} {p : String × Int}
    (h : p ∈ dictSet m k v) : p = (k, v) ∨ p ∈ m := by
  induction m with
  | nil => simpa [dictSet] using h
  | cons q rest ih =>
    obtain ⟨a, b⟩ := q
    by_cases hk : a = k
    · subst hk
      simp [dictSet] at h
      rcases h with h | h
      · exact Or.inl (by simp [h])
      · exact Or.inr (List.mem_cons_of_mem _ h)
    · simp [dictSet, hk] at h
      rcases h with h | h
      · exact Or.inr (by simp [h])
      · rcases ih h with h' | h'
        · exact Or.inl h'
        · exact Or.inr (List.mem_cons_of_mem _ h')

theorem dictNonNeg_iff (m : Dict) :
    dictNonNeg m = true ↔ ∀ p ∈ m, 0 ≤ p.2 := by
  simp [dictNonNeg]

theorem dictNonNeg_get {m : Dict} {k : String} {v : Int}
    (hm : dictNonNeg m = true) (h : dictGet m k = some v) : 0 ≤ v :=
  (dictNonNeg_iff m).mp hm (k, v) (dictGet_mem h)

theorem dictNonNeg_set {m : Dict} {k : String} {v : Int}
    (hm : dictNonNeg m = true) (hv : 0 ≤ v) : dictNonNeg (dictSet m k v) = true := by
  refine (dictNonNeg_iff _).mpr (fun p hp => ?_)
  rcases mem_dictSet hp with h | h
  · simpa [h] using hv
  · exact (dictNonNeg_iff m).mp hm p h

/-! ### Lemmas about field serialization and `HASH` -/

theorem encodeField_int_ok {i : Int} (h0 : 0 ≤ i) (h1 : i < Int.ofNat (2 ^ 1024)) :
    encodeField (.int i) = .ok (beBytes 128 i.toNat) := by
  unfold encodeField
  exact if_pos ⟨h0, h1⟩

theorem encodeField_int_neg {i : Int} (h : i < 0) :
    encodeField (.int i) = .error .overflowError := by
  unfold encodeField
  exact if_neg (fun hc => absurd hc.1 (not_le.mpr h))

theorem encodeField_int_big {i : Int} (h : Int.ofNat (2 ^ 1024) ≤ i) :
    encodeField (.int i) = .error .overflowError := by
  unfold encodeField
  exact if_neg (fun hc => absurd hc.2 (not_lt.mpr h))

/-- Serializations of `str` and `bytes` fields never raise. -/
theorem encodeField_strOrBytes_ok (a : HVal) (h : ∀ i, a ≠ .int i) :
    ∃ ba, encodeField a = .ok ba := by
  cases a with
  | str s => exact ⟨encodeStr s, rfl⟩
  | int i => exact absurd rfl (h i)
  | bytes b => exact ⟨b, rfl⟩

theorem HASH_pair {a b : HVal} {ba bb : Bytes}
    (ha : encodeField a = .ok ba) (hb : encodeField b = .ok bb) :
    HASH [a, b] = .ok ⟨ba ++ bb⟩ := by
  simp [HASH, encodeFields, ha, hb]

theorem encodeField_str (s : String) : encodeField (.str s) = .ok (encodeStr s) := rfl

theorem encodeField_bytes (b : Bytes) : encodeField (.bytes b) = .ok b := rfl

theorem except_map_ok_inv {α β ε : Type} {f : α → β} {x : Except ε α} {y : β}
    (h : Except.map f x = .ok y) : ∃ a, x = .ok a ∧ y = f a := by
  cases x with
  | error e => simp [Except.map] at h
  | ok a =>
    refine ⟨a, rfl, ?_⟩
    simpa [Except.map] using h.symm

theorem encodeField_int_inv {i : Int} {b : Bytes} (h : encodeField (.int i) = .ok b) :
    0 ≤ i ∧ i < Int.ofNat (2 ^ 1024) := by
  by_cases hc : 0 ≤ i ∧ i < Int.ofNat (2 ^ 1024)
  · exact hc
  · have he : encodeField (.int i) = .error .overflowError := by
      unfold encodeField
      exact if_neg hc
    rw [he] at h
    simp at h

/-! ### Lemmas about transaction construction, signing and validation -/

theorem tx_init_ok (b t : String) (amount : Int) (msg : HVal) (mb : Bytes)
    (h0 : 0 ≤ amount) (h1 : amount < Int.ofNat (2 ^ 1024))
    (hmsg : encodeField msg = .ok mb) :
    Tx.init b t amount msg =
      .ok ⟨b, t, amount, msg, none,
        ⟨encodeStr b ++ (encodeStr t ++ (beBytes 128 amount.toNat ++ mb))⟩, none⟩ := by
  simp [Tx.init, HASH, encodeFields, encodeField_str, encodeField_bytes,
    encodeField_int_ok h0 h1, hmsg, Except.map]

theorem tx_init_exists (b t : String) (amount : Int) (msg : HVal) (mb : Bytes)
    (h0 : 0 ≤ amount) (h1 : amount < Int.ofNat (2 ^ 1024))
    (hmsg : encodeField msg = .ok mb) :
    ∃ d, Tx.init b t amount msg = .ok ⟨b, t, amount, msg, none, d, none⟩ :=
  ⟨_, tx_init_ok b t amount msg mb h0 h1 hmsg⟩

theorem tx_init_inv {b t : String} {amount : Int} {msg : HVal} {tx : Tx}
    (h : Tx.init b t amount msg = .ok tx) :
    0 ≤ amount ∧ amount < Int.ofNat (2 ^ 1024) ∧
      (∃ mb, encodeField msg = .ok mb) ∧
      tx = ⟨b, t, amount, msg, none, tx.prehash, none⟩ := by
  obtain ⟨d, hd, htx⟩ := except_map_ok_inv h
  cases hA : encodeField (.int amount) with
  | error e =>
    simp [HASH, encodeFields, encodeField_str, hA] at hd
  | ok ab =>
    obtain ⟨h0, h1⟩ := encodeField_int_inv hA
    cases hM : encodeField msg with
    | error e =>
      simp [HASH, encodeFields, encodeField_str, hA, hM] at hd
    | ok mb =>
      exact ⟨h0, h1, ⟨mb, rfl⟩, by rw [htx]⟩

theorem tx_sign_ok (b t : String) (amount : Int) (msg : HVal) (mb : Bytes)
    (d : Digest) (sgn : Option Bytes) (th : Option Digest) (key : Nat)
    (h0 : 0 ≤ amount) (h1 : amount < Int.ofNat (2 ^ 1024))
    (hmsg : encodeField msg = .ok mb) :
    ∃ d', Tx.sign ⟨b, t, amount, msg, sgn, d, th⟩ key =
      .ok ⟨b, t, amount, msg, some (signBytes key d), d, some d'⟩ := by
  refine ⟨⟨encodeStr b ++ (encodeStr t ++ (beBytes 128 amount.toNat ++
    (signBytes key d ++ mb)))⟩, ?_⟩
  simp [Tx.sign, HASH, encodeFields, encodeField_str, encodeField_bytes,
    encodeField_int_ok h0 h1, hmsg, Except.map]

theorem tx_isValid_self (key : Nat) (t : String) (amount : Int) (msg : HVal)
    (d : Digest) (th : Option Digest) :
    Tx.isValid ⟨key_to_public_hex key, t, amount, msg,
      some (signBytes key d), d, th⟩ = true := by
  simp [Tx.isValid, verifySig, signBytes]

theorem validateTx_of_valid {c : Chain} {m : Dict} {tx : Tx} {bal : Int}
    (hm : c.addr = some m) (hv : tx.isValid = true)
    (hbal : dictGet m tx.«by» = some bal) :
    c.validateTx tx = .ok (decide (tx.amount ≤ bal)) := by
  simp [Chain.validateTx, hv, hm, hbal]

theorem validateTx_unknown {c : Chain} {m : Dict} {tx : Tx}
    (hm : c.addr = some m) (hv : tx.isValid = true)
    (hbal : dictGet m tx.«by» = none) :
    c.validateTx tx = .error .keyError := by
  simp [Chain.validateTx, hv, hm, hbal]

/-- `addBlock` never touches the balance mapping, whether it succeeds or
raises. -/
theorem addBlock_addr (c : Chain) (ts : Int) : (c.addBlock ts).1.addr = c.addr := by
  unfold Chain.addBlock
  cases h1 : hash_txs c.txs with
  | error e => simp
  | ok root =>
    cases h2 : c.last_block with
    | none => simp
    | some lb =>
      cases h3 : Block.init (.str lb.hexhash) root ts 0 c.txs with
      | error e => simp [h3]
      | ok nb => simp [h3]

/-! ### Evaluation lemmas for `Chain.transact` -/

/-- Forward evaluation of an accepted submission: with a configured balance
mapping, a representable amount covered by the sender's balance, `transact`
debits/credits, appends the signed transaction, and seals exactly when the
buffer reaches `tx_limit`. -/
theorem transact_forward (c : Chain) (m : Dict) (bal now : Int) (key : Nat)
    (t : String) (amount : Int) (msg : HVal) (mb : Bytes)
    (hm : c.addr = some m)
    (hmsg : encodeField msg = .ok mb)
    (h0 : 0 ≤ amount) (h1 : amount < Int.ofNat (2 ^ 1024))
    (hbal : dictGet m (key_to_public_hex key) = some bal)
    (hge : amount ≤ bal) :
    ∃ tx : Tx, tx.«by» = key_to_public_hex key ∧ tx.«to» = t ∧
      tx.amount = amount ∧ tx.msg = msg ∧ tx.txhash.isSome = true ∧
      c.transact now key t amount msg none =
        (if (c.txs ++ [tx]).length = Chain.tx_limit then
          Chain.addBlock ⟨c.blocks, c.txs ++ [tx],
            some (debitCredit m (key_to_public_hex key) t amount)⟩ now
        else (⟨c.blocks, c.txs ++ [tx],
          some (debitCredit m (key_to_public_hex key) t amount)⟩, none)) := by
  have hinit := tx_init_ok (key_to_public_hex key) t amount msg mb h0 h1 hmsg
  obtain ⟨d', hsign⟩ := tx_sign_ok (key_to_public_hex key) t amount msg mb
    ⟨encodeStr (key_to_public_hex key) ++
      (encodeStr t ++ (beBytes 128 amount.toNat ++ mb))⟩ none none key h0 h1 hmsg
  have hvalid := tx_isValid_self key t amount msg
    ⟨encodeStr (key_to_public_hex key) ++
      (encodeStr t ++ (beBytes 128 amount.toNat ++ mb))⟩ (some d')
  have hdec : decide (amount ≤ bal) = true := decide_eq_true hge
  refine ⟨⟨key_to_public_hex key, t, amount, msg,
    some (signBytes key ⟨encodeStr (key_to_public_hex key) ++
      (encodeStr t ++ (beBytes 128 amount.toNat ++ mb))⟩),
    ⟨encodeStr (key_to_public_hex key) ++
      (encodeStr t ++ (beBytes 128 amount.toNat ++ mb))⟩, some d'⟩,
    rfl, rfl, rfl, rfl, rfl, ?_⟩
  have hvtx := validateTx_of_valid hm hvalid hbal
  simp only [Chain.transact, hinit, hsign, hvtx, hdec, hm]

/-- A submission whose amount exceeds the sender's recorded balance is
rejected with the bare `ValueError('invalid tx')` and leaves the state
untouched. -/
theorem transact_insufficient (c : Chain) (m : Dict) (bal now : Int) (key : Nat)
    (t : String) (amount : Int) (msg : HVal) (mb : Bytes)
    (hm : c.addr = some m)
    (hmsg : encodeField msg = .ok mb)
    (h0 : 0 ≤ amount) (h1 : amount < Int.ofNat (2 ^ 1024))
    (hbal : dictGet m (key_to_public_hex key) = some bal)
    (hlt : bal < amount) :
    c.transact now key t amount msg none = (c, some .valueError) := by
  have hinit := tx_init_ok (key_to_public_hex key) t amount msg mb h0 h1 hmsg
  obtain ⟨d', hsign⟩ := tx_sign_ok (key_to_public_hex key) t amount msg mb
    ⟨encodeStr (key_to_public_hex key) ++
      (encodeStr t ++ (beBytes 128 amount.toNat ++ mb))⟩ none none key h0 h1 hmsg
  have hvalid := tx_isValid_self key t amount msg
    ⟨encodeStr (key_to_public_hex key) ++
      (encodeStr t ++ (beBytes 128 amount.toNat ++ mb))⟩ (some d')
  have hdec : decide (amount ≤ bal) = false := decide_eq_false (not_le.mpr hlt)
  have hvtx := validateTx_of_valid hm hvalid hbal
  simp only [Chain.transact, hinit, hsign, hvtx, hdec]

/-- A submission whose sender address has no entry in `addr` escapes with
the `KeyError` raised by the balance lookup inside `validateTx`, leaving
the state untouched. -/
theorem transact_unknown_sender (c : Chain) (m : Dict) (now : Int) (key : Nat)
    (t : String) (amount : Int) (msg : HVal) (mb : Bytes)
    (hm : c.addr = some m)
    (hmsg : encodeField msg = .ok mb)
    (h0 : 0 ≤ amount) (h1 : amount < Int.ofNat (2 ^ 1024))
    (hbal : dictGet m (key_to_public_hex key) = none) :
    c.transact now key t amount msg none = (c, some .keyError) := by
  have hinit := tx_init_ok (key_to_public_hex key) t amount msg mb h0 h1 hmsg
  obtain ⟨d', hsign⟩ := tx_sign_ok (key_to_public_hex key) t amount msg mb
    ⟨encodeStr (key_to_public_hex key) ++
      (encodeStr t ++ (beBytes 128 amount.toNat ++ mb))⟩ none none key h0 h1 hmsg
  have hvalid := tx_isValid_self key t amount msg
    ⟨encodeStr (key_to_public_hex key) ++
      (encodeStr t ++ (beBytes 128 amount.toNat ++ mb))⟩ (some d')
  have hvtx := validateTx_unknown hm hvalid hbal
  simp only [Chain.transact, hinit, hsign, hvtx]

/-! ### Lemmas about `debitCredit` -/

/-- A self-transfer from a known sender leaves the mapping unchanged: the
debit and the credit cancel. -/
theorem debitCredit_self {m : Dict} {s : String} {bal amount : Int}
    (hbal : dictGet m s = some bal) :
    debitCredit m s s amount = m := by
  simp only [debitCredit, hbal, dictGet_dictSet_self]
  rw [dictSet_dictSet, Int.sub_add_cancel, dictSet_of_get_eq m s bal hbal]

/-- Sender balance after a transfer to a different receiver. -/
theorem debitCredit_sender {m : Dict} {s t : String} {bal amount : Int}
    (hbal : dictGet m s = some bal) (hne : t ≠ s) :
    dictGet (debitCredit m s t amount) s = some (bal - amount) := by
  simp only [debitCredit, hbal]
  rw [dictGet_dictSet_ne m s t (bal - amount) hne]
  cases hmt : dictGet m t with
  | none =>
    simp only []
    rw [dictGet_dictSet_ne _ t s amount (Ne.symm hne), dictGet_dictSet_self]
  | some v =>
    simp only []
    rw [dictGet_dictSet_ne _ t s (v + amount) (Ne.symm hne), dictGet_dictSet_self]

/-- Receiver balance after a transfer from a different sender: the entry is
created at the credited amount when absent (`pre.get(t, 0) + amount`). -/
theorem debitCredit_receiver {m : Dict} {s t : String} {bal amount : Int}
    (hbal : dictGet m s = some bal) (hne : t ≠ s) :
    dictGet (debitCredit m s t amount) t = some ((dictGet m t).getD 0 + amount) := by
  simp only [debitCredit, hbal]
  rw [dictGet_dictSet_ne m s t (bal - amount) hne]
  cases hmt : dictGet m t with
  | none =>
    simp only [Option.getD]
    rw [dictGet_dictSet_self]
    simp
  | some v =>
    simp only [Option.getD]
    rw [dictGet_dictSet_self]

/-- The debit/credit step preserves non-negativity of all balances when the
amount is non-negative and covered by the sender's balance. -/
theorem debitCredit_nonneg {m : Dict} {s t : String} {bal amount : Int}
    (hm : dictNonNeg m = true) (hbal : dictGet m s = some bal)
    (h0 : 0 ≤ amount) (hge : amount ≤ bal) :
    dictNonNeg (debitCredit m s t amount) = true := by
  simp only [debitCredit, hbal]
  have hnn1 : dictNonNeg (dictSet m s (bal - amount)) = true :=
    dictNonNeg_set hm (by omega)
  cases hmt : dictGet (dictSet m s (bal - amount)) t with
  | none => exact dictNonNeg_set hnn1 h0
  | some v =>
    have hv := dictNonNeg_get hnn1 hmt
    exact dictNonNeg_set hnn1 (by omega)

/-! ### Inversion lemmas for validation, block construction and sealing -/

theorem validateTx_ok_true_inv {c : Chain} {tx : Tx}
    (h : c.validateTx tx = .ok true) :
    tx.isValid = true ∧ ∃ m bal, c.addr = some m ∧
      dictGet m tx.«by» = some bal ∧ tx.amount ≤ bal := by
  unfold Chain.validateTx at h
  by_cases hv : tx.isValid = true
  · rw [if_pos hv] at h
    cases hm : c.addr with
    | none => rw [hm] at h; simp at h
    | some m =>
      rw [hm] at h
      simp only [] at h
      cases hbal : dictGet m tx.«by» with
      | none => rw [hbal] at h; simp at h
      | some bal =>
        rw [hbal] at h
        simp at h
        exact ⟨hv, m, bal, rfl, hbal, h⟩
  · rw [if_neg hv] at h
    simp at h

theorem block_init_inv {p r : HVal} {ts nc : Int} {txs : List Tx} {nb : Block}
    (h : Block.init p r ts nc txs = .ok nb) :
    nb.header.prevhash = p ∧ nb.header.roothash = r ∧
      nb.header.timestamp = ts ∧ nb.header.nouce = nc ∧ nb.transactions = txs := by
  obtain ⟨hdr, hhdr, hnb⟩ := except_map_ok_inv h
  obtain ⟨d2, -, hhdr2⟩ := except_map_ok_inv hhdr
  subst hnb
  subst hhdr2
  exact ⟨rfl, rfl, rfl, rfl, rfl⟩

theorem block_init_ok (p : String) (r : HVal) (rb : Bytes) (ts : Int)
    (txs : List Tx) (hr : encodeField r = .ok rb)
    (ht0 : 0 ≤ ts) (ht1 : ts < Int.ofNat (2 ^ 1024)) :
    ∃ nb, Block.init (.str p) r ts 0 txs = .ok nb ∧
      nb.header.prevhash = .str p ∧ nb.header.roothash = r ∧
      nb.transactions = txs := by
  have h0enc : encodeField (.int (0 : Int)) = .ok (beBytes 128 (0 : Int).toNat) :=
    encodeField_int_ok (le_refl 0) (by decide)
  refine ⟨⟨⟨.str p, r, ts, 0,
    ⟨encodeStr p ++ (rb ++ (beBytes 128 ts.toNat ++ beBytes 128 (0 : Int).toNat))⟩⟩,
    txs⟩, ?_, rfl, rfl, rfl⟩
  simp [Block.init, BlockHeader.init, HASH, encodeFields, encodeField_str, hr,
    encodeField_int_ok ht0 ht1, h0enc, Except.map]

theorem addBlock_accept {c c' : Chain} {ts : Int}
    (h : c.addBlock ts = (c', none)) :
    ∃ root lb nb, hash_txs c.txs = .ok root ∧ c.blocks.getLast? = some lb ∧
      Block.init (.str lb.hexhash) root ts 0 c.txs = .ok nb ∧
      c' = ⟨c.blocks ++ [nb], [], c.addr⟩ := by
  unfold Chain.addBlock at h
  cases h1 : hash_txs c.txs with
  | error e => rw [h1] at h; simp at h
  | ok root =>
    rw [h1] at h
    simp only [] at h
    cases h2 : c.last_block with
    | none => rw [h2] at h; simp at h
    | some lb =>
      rw [h2] at h
      simp only [] at h
      cases h3 : Block.init (.str lb.hexhash) root ts 0 c.txs with
      | error e => rw [h3] at h; simp at h
      | ok nb =>
        rw [h3] at h
        simp only [Prod.mk.injEq] at h
        exact ⟨root, lb, nb, rfl, h2, h3, h.1.symm⟩

/-! ### Totality of `hash_txs` on signed batches -/

theorem hashTxsFold_ok (txs : List Tx) : ∀ (acc : HVal) (ab : Bytes),
    encodeField acc = .ok ab → (∀ tx ∈ txs, tx.txhash.isSome = true) →
    ∃ root rb, hashTxsFold acc txs = .ok root ∧ encodeField root = .ok rb := by
  induction txs with
  | nil =>
    intro acc ab ha _
    exact ⟨acc, ab, rfl, ha⟩
  | cons tx rest ih =>
    intro acc ab ha hsig
    obtain ⟨d, hd⟩ := Option.isSome_iff_exists.mp (hsig tx (by simp))
    have hhb : tx.hashBytes = .ok d.msg := by simp [Tx.hashBytes, hd]
    have htree : tree_hash [acc, .bytes d.msg] = .ok (Digest.hexdigest ⟨ab ++ d.msg⟩) := by
      simp [tree_hash, HASH_pair ha (encodeField_bytes d.msg), Except.map]
    obtain ⟨root, rb, h1, h2⟩ := ih (.str (Digest.hexdigest ⟨ab ++ d.msg⟩))
      (encodeStr (Digest.hexdigest ⟨ab ++ d.msg⟩)) rfl
      (fun t ht => hsig t (by simp [ht]))
    exact ⟨root, rb, by simp [hashTxsFold, hhb, htree, h1], h2⟩

theorem hash_txs_ok (txs : List Tx) (hne : txs ≠ [])
    (hsig : ∀ tx ∈ txs, tx.txhash.isSome = true) :
    ∃ root rb, hash_txs txs = .ok root ∧ encodeField root = .ok rb := by
  cases txs with
  | nil => exact absurd rfl hne
  | cons tx rest =>
    obtain ⟨d, hd⟩ := Option.isSome_iff_exists.mp (hsig tx (by simp))
    have hhb : tx.hashBytes = .ok d.msg := by simp [Tx.hashBytes, hd]
    obtain ⟨root, rb, h1, h2⟩ := hashTxsFold_ok rest (.bytes d.msg) d.msg rfl
      (fun t ht => hsig t (by simp [ht]))
    exact ⟨root, rb, by simp [hash_txs, hhb, h1], h2⟩

/-- Forward evaluation of a successful seal. -/
theorem addBlock_ok (c : Chain) (ts : Int) (lb : Block)
    (hlb : c.blocks.getLast? = some lb)
    (hne : c.txs ≠ []) (hsig : ∀ tx ∈ c.txs, tx.txhash.isSome = true)
    (ht0 : 0 ≤ ts) (ht1 : ts < Int.ofNat (2 ^ 1024)) :
    ∃ nb, c.addBlock ts = (⟨c.blocks ++ [nb], [], c.addr⟩, none) ∧
      nb.transactions = c.txs ∧ nb.header.prevhash = .str lb.hexhash ∧
      hash_txs c.txs = .ok nb.header.roothash := by
  obtain ⟨root, rb, hroot, hrb⟩ := hash_txs_ok c.txs hne hsig
  obtain ⟨nb, hnb, hp, hr, htx⟩ := block_init_ok lb.hexhash root rb ts c.txs hrb ht0 ht1
  refine ⟨nb, ?_, htx, hp, by rw [hr]; exact hroot⟩
  simp [Chain.addBlock, hroot, Chain.last_block, hlb, hnb]

/-- Inversion of an accepted submission: what every `transact` call that
returned without an exception did to the state. -/
theorem transact_accept_spec {c c' : Chain} {now : Int} {key : Nat} {t : String}
    {amount : Int} {msg : HVal} {byArg : Option String}
    (h : c.transact now key t amount msg byArg = (c', none)) :
    ∃ (tx : Tx) (m : Dict) (bal : Int),
      c.addr = some m ∧ dictGet m tx.«by» = some bal ∧
      tx.amount = amount ∧ tx.«to» = t ∧ amount ≤ bal ∧ 0 ≤ amount ∧
      c'.addr = some (debitCredit m tx.«by» t amount) ∧
      ((c'.txs = c.txs ++ [tx] ∧ c'.blocks = c.blocks) ∨
        (∃ nb lb, c.blocks.getLast? = some lb ∧ c'.txs = [] ∧
          c'.blocks = c.blocks ++ [nb] ∧
          nb.header.prevhash = .str lb.hexhash ∧
          nb.transactions = c.txs ++ [tx] ∧
          hash_txs (c.txs ++ [tx]) = .ok nb.header.roothash)) := by
  simp only [Chain.transact] at h
  generalize hB : (match byArg with
    | none => key_to_public_hex key
    | some s => if s = "" then key_to_public_hex key else s) = b at h
  cases hI : Tx.init b t amount msg with
  | error e => rw [hI] at h; simp at h
  | ok tx0 =>
    rw [hI] at h
    simp only [] at h
    obtain ⟨h0, h1, ⟨mb, hM⟩, htx0⟩ := tx_init_inv hI
    obtain ⟨tb, tt, ta, tm, tsg, tp, tth⟩ := tx0
    simp only [Tx.mk.injEq] at htx0
    obtain ⟨hb1, hb2, hb3, hb4, hb5, -, hb7⟩ := htx0
    subst hb1; subst hb2; subst hb3; subst hb4; subst hb5; subst hb7
    obtain ⟨d', hsign⟩ := tx_sign_ok tb tt ta tm mb tp none none key h0 h1 hM
    rw [hsign] at h
    simp only [] at h
    cases hV : Chain.validateTx c
        ⟨tb, tt, ta, tm, some (signBytes key tp), tp, some d'⟩ with
    | error e => rw [hV] at h; simp at h
    | ok bv =>
      rw [hV] at h
      cases bv with
      | false => simp at h
      | true =>
        simp only [] at h
        obtain ⟨hvalid, m, bal, hm, hbal, hle⟩ := validateTx_ok_true_inv hV
        rw [hm] at h
        simp only [] at h
        by_cases hlim : (c.txs ++
            [(⟨tb, tt, ta, tm, some (signBytes key tp), tp, some d'⟩ : Tx)]).length =
            Chain.tx_limit
        · rw [if_pos hlim] at h
          obtain ⟨root, lb, nb, hroot, hlast, hbinit, hc'⟩ := addBlock_accept h
          obtain ⟨hp, hr, -, -, htxs⟩ := block_init_inv hbinit
          subst hc'
          refine ⟨⟨tb, tt, ta, tm, some (signBytes key tp), tp, some d'⟩,
            m, bal, hm, hbal, rfl, rfl, hle, h0, rfl,
            Or.inr ⟨nb, lb, hlast, rfl, rfl, hp, htxs, ?_⟩⟩
          rw [hr]
          exact hroot
        · rw [if_neg hlim] at h
          simp only [Prod.mk.injEq] at h
          obtain ⟨hc', -⟩ := h
          subst hc'
          exact ⟨⟨tb, tt, ta, tm, some (signBytes key tp), tp, some d'⟩,
            m, bal, hm, hbal, rfl, rfl, hle, h0, rfl, Or.inl ⟨rfl, rfl⟩⟩

/-! ### The chain-link and balance invariants along accepted submissions -/

theorem linkedB_append {bs : List Block} {lb nb : Block}
    (hl : linkedB bs = true) (hlast : bs.getLast? = some lb)
    (hnb : nb.header.prevhash = .str lb.hexhash) :
    linkedB (bs ++ [nb]) = true := by
  induction bs with
  | nil => simp at hlast
  | cons b rest ih =>
    cases rest with
    | nil =>
      simp at hlast
      subst hlast
      simp [linkedB, hnb]
    | cons b2 rest2 =>
      simp only [linkedB, Bool.and_eq_true, decide_eq_true_eq] at hl
      have htail := ih hl.2 (by simpa [List.getLast?_cons_cons] using hlast)
      simp only [List.cons_append, linkedB, Bool.and_eq_true, decide_eq_true_eq]
      constructor
      · exact hl.1
      · simpa [List.cons_append] using htail

theorem steps_linked {c c' : Chain} (hs : Steps c c')
    (h1 : c.blocks ≠ [] ∧ linkedB c.blocks = true) :
    c'.blocks ≠ [] ∧ linkedB c'.blocks = true := by
  induction hs with
  | refl => exact h1
  | tail now key t amount msg byArg hsteps hstep ih =>
    obtain ⟨hne, hlk⟩ := ih
    obtain ⟨tx, m, bal, -, -, -, -, -, -, -, hcase⟩ := transact_accept_spec hstep
    rcases hcase with ⟨-, hb⟩ | ⟨nb, lb, hlast, -, hb, hprev, -, -⟩
    · rw [hb]
      exact ⟨hne, hlk⟩
    · rw [hb]
      exact ⟨by simp, linkedB_append hlk hlast hprev⟩

theorem steps_nonneg {c c' : Chain} (hs : Steps c c')
    (h1 : ∀ m, c.addr = some m → dictNonNeg m = true) :
    ∀ m, c'.addr = some m → dictNonNeg m = true := by
  induction hs with
  | refl => exact h1
  | tail now key t amount msg byArg hsteps hstep ih =>
    intro m' hm'
    obtain ⟨tx, m, bal, hm, hbal, hamt, -, hge, h0, haddr, -⟩ :=
      transact_accept_spec hstep
    have hmn := ih m hm
    rw [haddr] at hm'
    cases hm'
    exact debitCredit_nonneg hmn hbal h0 hge

/-! ### Forward evaluation of a full batch (the sealing trigger) -/

theorem stepValid_inv {c : Chain} {r : SubReq} (h : stepValid c r = true) :
    0 ≤ r.now ∧ r.now < Int.ofNat (2 ^ 1024) ∧ 0 ≤ r.amount ∧
      r.amount < Int.ofNat (2 ^ 1024) ∧ (∃ mb, encodeField r.msg = .ok mb) ∧
      ∃ m bal, c.addr = some m ∧
        dictGet m (key_to_public_hex r.key) = some bal ∧ r.amount ≤ bal := by
  unfold stepValid at h
  simp only [Bool.and_eq_true, decide_eq_true_eq] at h
  obtain ⟨⟨⟨⟨⟨h1, h2⟩, h3⟩, h4⟩, h5⟩, h6⟩ := h
  refine ⟨h1, h2, h3, h4, ?_, ?_⟩
  · cases he : encodeField r.msg with
    | error e => rw [he] at h5; simp [Except.isOk, Except.toBool] at h5
    | ok mb => exact ⟨mb, rfl⟩
  · cases hm : c.addr with
    | none => rw [hm] at h6; simp at h6
    | some m =>
      rw [hm] at h6
      simp only [] at h6
      cases hbal : dictGet m (key_to_public_hex r.key) with
      | none => rw [hbal] at h6; simp at h6
      | some bal =>
        rw [hbal] at h6
        simp only [decide_eq_true_eq] at h6
        exact ⟨m, bal, rfl, hbal, h6⟩

theorem ne_nil_getLast_some {α : Type} (l : List α) (h : l ≠ []) :
    ∃ a, l.getLast? = some a := by
  cases hl : l.getLast? with
  | some a => exact ⟨a, rfl⟩
  | none => exact absurd (List.getLast?_eq_none_iff.mp hl) h

theorem runSubs_cons_ok {c c1 : Chain} {r : SubReq} {rs : List SubReq}
    (h : c.transact r.now r.key r.«to» r.amount r.msg none = (c1, none)) :
    runSubs c (r :: rs) = runSubs c1 rs := by
  simp only [runSubs, h]

/-- Running a batch that exactly fills the pending buffer: every step is
admitted, no prefix seals, and the final step seals exactly one block over
the whole batch. -/
theorem seal_aux : ∀ (rs : List SubReq) (c : Chain),
    c.blocks ≠ [] →
    (∀ tx ∈ c.txs, tx.txhash.isSome = true) →
    rs ≠ [] →
    c.txs.length + rs.length = Chain.tx_limit →
    allValid c rs = true →
    (runSubs c rs).2 = none ∧
    (runSubs c rs).1.txs = [] ∧
    (runSubs c rs).1.blocks.dropLast = c.blocks ∧
    (∃ nb, (runSubs c rs).1.blocks.getLast? = some nb ∧
      nb.transactions.length = Chain.tx_limit ∧
      hash_txs nb.transactions = .ok nb.header.roothash) ∧
    (∀ k, k < rs.length →
      (runSubs c (rs.take k)).1.blocks = c.blocks ∧
      (runSubs c (rs.take k)).2 = none) := by
  intro rs
  induction rs with
  | nil =>
    intro c _ _ hne _ _
    exact absurd rfl hne
  | cons r rest ih =>
    intro c hbne hsig _ hcount hvalid
    simp only [allValid, Bool.and_eq_true] at hvalid
    obtain ⟨hsv, hrest⟩ := hvalid
    obtain ⟨hn0, hn1, ha0, ha1, ⟨mb, hmb⟩, m, bal, hm, hbal, hle⟩ := stepValid_inv hsv
    obtain ⟨tx, hby, hto, hamt, hmsg', hth, heval⟩ :=
      transact_forward c m bal r.now r.key r.«to» r.amount r.msg mb hm hmb ha0 ha1 hbal hle
    cases rest with
    | nil =>
      have hlim : (c.txs ++ [tx]).length = Chain.tx_limit := by
        simp only [List.length_append, List.length_cons, List.length_nil]
        simp only [List.length_cons, List.length_nil] at hcount
        omega
      rw [if_pos hlim] at heval
      obtain ⟨lb, hlb⟩ := ne_nil_getLast_some c.blocks hbne
      have hsig1 : ∀ tx' ∈ c.txs ++ [tx], tx'.txhash.isSome = true := by
        intro tx' htx'
        rcases List.mem_append.mp htx' with hmem | hmem
        · exact hsig tx' hmem
        · rw [List.mem_singleton.mp hmem]
          exact hth
      obtain ⟨nb, haddB, hntx, hnprev, hnroot⟩ := addBlock_ok
        ⟨c.blocks, c.txs ++ [tx], some (debitCredit m (key_to_public_hex r.key) r.«to» r.amount)⟩
        r.now lb hlb (by simp) hsig1 hn0 hn1
      have hstep : c.transact r.now r.key r.«to» r.amount r.msg none =
          (⟨c.blocks ++ [nb], [],
            some (debitCredit m (key_to_public_hex r.key) r.«to» r.amount)⟩, none) := by
        rw [heval]
        exact haddB
      have hrun : runSubs c [r] =
          (⟨c.blocks ++ [nb], [],
            some (debitCredit m (key_to_public_hex r.key) r.«to» r.amount)⟩, none) := by
        rw [runSubs_cons_ok hstep]
        rfl
      refine ⟨by rw [hrun], by rw [hrun], ?_, ?_, ?_⟩
      · rw [hrun]
        exact List.dropLast_concat
      · refine ⟨nb, ?_, ?_, ?_⟩
        · rw [hrun]
          exact List.getLast?_concat _
        · rw [hntx]
          simpa using hlim
        · rw [hntx]
          exact hnroot
      · intro k hk
        have hk0 : k = 0 := Nat.lt_one_iff.mp (by simpa using hk)
        subst hk0
        exact ⟨rfl, rfl⟩
    | cons r2 rest2 =>
      have hlim : (c.txs ++ [tx]).length ≠ Chain.tx_limit := by
        simp only [List.length_append, List.length_cons, List.length_nil]
        simp only [List.length_cons] at hcount
        omega
      rw [if_neg hlim] at heval
      have hc1rest : allValid
          ⟨c.blocks, c.txs ++ [tx],
            some (debitCredit m (key_to_public_hex r.key) r.«to» r.amount)⟩
          (r2 :: rest2) = true := by
        rw [heval] at hrest
        exact hrest
      have hcount1 : (c.txs ++ [tx]).length + (r2 :: rest2).length = Chain.tx_limit := by
        simp only [List.length_append, List.length_cons, List.length_nil]
        simp only [List.length_cons] at hcount
        omega
      have hsig1 : ∀ tx' ∈ c.txs ++ [tx], tx'.txhash.isSome = true := by
        intro tx' htx'
        rcases List.mem_append.mp htx' with hmem | hmem
        · exact hsig tx' hmem
        · rw [List.mem_singleton.mp hmem]
          exact hth
      obtain ⟨ih1, ih2, ih3, ih4, ih5⟩ := ih
        ⟨c.blocks, c.txs ++ [tx],
          some (debitCredit m (key_to_public_hex r.key) r.«to» r.amount)⟩
        hbne hsig1 (by simp) hcount1 hc1rest
      have hrw : runSubs c (r :: r2 :: rest2) = runSubs
          ⟨c.blocks, c.txs ++ [tx],
            some (debitCredit m (key_to_public_hex r.key) r.«to» r.amount)⟩
          (r2 :: rest2) := runSubs_cons_ok heval
      refine ⟨by rw [hrw]; exact ih1, by rw [hrw]; exact ih2,
        by rw [hrw]; exact ih3, by rw [hrw]; exact ih4, ?_⟩
      intro k hk
      cases k with
      | zero => exact ⟨rfl, rfl⟩
      | succ j =>
        have hj : j < (r2 :: rest2).length := by
          simpa using hk
        have htake : runSubs c ((r :: r2 :: rest2).take (j + 1)) = runSubs
            ⟨c.blocks, c.txs ++ [tx],
              some (debitCredit m (key_to_public_hex r.key) r.«to» r.amount)⟩
            ((r2 :: rest2).take j) := by
          simp only [List.take_succ_cons]
          exact runSubs_cons_ok heval
        obtain ⟨hp1, hp2⟩ := ih5 j hj
        exact ⟨by rw [htake]; exact hp1, by rw [htake]; exact hp2⟩

/-! ### Claim theorems -/

/-- C2: for every ledger initialized with non-negative balances, after any
sequence of accepted submissions every value in the balances mapping is
non-negative — no accepted transaction ever drives a balance below zero. -/
theorem balances_never_negative (ts : Int) (m0 : Dict) (c0 c : Chain) (m : Dict)
    (hinit : Chain.init ts (some m0) = .ok c0)
    (h0 : dictNonNeg m0 = true)
    (hs : Steps c0 c)
    (hm : c.addr = some m) :
    dictNonNeg m = true := by
  obtain ⟨g, -, hc0⟩ := except_map_ok_inv hinit
  subst hc0
  exact steps_nonneg hs (fun m' hm' => by cases hm'; exact h0) m hm

theorem balances_never_negative_witness :
    dictNonNeg [("7", (100 : Int))] = true :=
  balances_never_negative 0 [("7", 100)] (initChain [("7", 100)])
    (initChain [("7", 100)]) [("7", 100)] rfl rfl (Steps.refl _) rfl

/-- C3 (counterexample): a submission of amount `2 ^ 1024` against a
balance of 100 exceeds the sender's balance, yet `submit` does not fail
with the validation error (`ValueError`, the source's spelling of
`InvalidTransaction`): transaction construction raises `OverflowError`
from the 128-byte integer serialization inside `Tx.__init__` before
validation is ever reached.  The state is still returned unchanged. -/
theorem oversized_amount_not_valueerror :
    (initChain [("7", 100)]).transact 0 7 "9" (Int.ofNat (2 ^ 1024)) (.int 0) none =
      (initChain [("7", 100)], some PyErr.overflowError) ∧
    (100 : Int) < Int.ofNat (2 ^ 1024) ∧
    PyErr.overflowError ≠ PyErr.valueError := by
  exact ⟨rfl, by decide, by decide⟩

/-- C3 (amended): for every submission whose amount exceeds the sender's
recorded balance, `submit` fails and the entire ledger state — balances,
pending buffer and blocks — is returned exactly as it was: no partial
debit, no buffered transaction, no sealed block.  The error is the
validation `ValueError` (`InvalidTransaction`) when the amount lies in the
hasher's representable range `[0, 2 ^ 1024)`; for an amount at or above
`2 ^ 1024`, or a negative amount, transaction construction itself raises
`OverflowError` from the 128-byte integer serialization before validation
is reached. -/
theorem insufficient_amount_always_rejected (c : Chain) (m : Dict)
    (bal now : Int) (key : Nat) (t : String) (amount : Int) (msg : HVal)
    (mb : Bytes)
    (hm : c.addr = some m)
    (hmsg : encodeField msg = .ok mb)
    (hbal : dictGet m (key_to_public_hex key) = some bal)
    (hlt : bal < amount) :
    (0 ≤ amount → amount < Int.ofNat (2 ^ 1024) →
      c.transact now key t amount msg none = (c, some PyErr.valueError)) ∧
    (Int.ofNat (2 ^ 1024) ≤ amount →
      c.transact now key t amount msg none = (c, some PyErr.overflowError)) ∧
    (amount < 0 →
      c.transact now key t amount msg none = (c, some PyErr.overflowError)) := by
  have habort : ∀ e, Tx.init (key_to_public_hex key) t amount msg = .error e →
      c.transact now key t amount msg none = (c, some e) := by
    intro e hI
    simp only [Chain.transact, hI]
  refine ⟨?_, ?_, ?_⟩
  · intro h0 h1
    exact transact_insufficient c m bal now key t amount msg mb hm hmsg h0 h1 hbal hlt
  · intro hbig
    refine habort _ ?_
    simp [Tx.init, HASH, encodeFields, encodeField_str,
      encodeField_int_big hbig, Except.map]
  · intro hneg
    refine habort _ ?_
    simp [Tx.init, HASH, encodeFields, encodeField_str,
      encodeField_int_neg hneg, Except.map]

theorem insufficient_amount_always_rejected_witness :
    (initChain [("7", 3)]).transact 0 7 "9" 5 (.int 0) none =
      (initChain [("7", 3)], some PyErr.valueError) ∧
    (initChain [("7", 100)]).transact 0 7 "9" (Int.ofNat (2 ^ 1024)) (.int 0) none =
      (initChain [("7", 100)], some PyErr.overflowError) := by
  constructor
  · exact (insufficient_amount_always_rejected (initChain [("7", 3)])
      [("7", 3)] 3 0 7 "9" 5 (.int 0) (beBytes 128 (0 : Int).toNat)
      rfl rfl rfl (by decide)).1 (by decide) (by decide)
  · exact (insufficient_amount_always_rejected (initChain [("7", 100)])
      [("7", 100)] 100 0 7 "9" (Int.ofNat (2 ^ 1024)) (.int 0)
      (beBytes 128 (0 : Int).toNat) rfl rfl rfl (by decide)).2.1 (by decide)

/-- C4: in every ledger state reachable from construction by accepted
submissions, every block except genesis carries as `prevhash` the (hex)
header hash of its immediate predecessor in `blocks`. -/
theorem chain_link_invariant (ts : Int) (ad : Option Dict) (c0 c : Chain)
    (hinit : Chain.init ts ad = .ok c0) (hs : Steps c0 c) :
    linkedB c.blocks = true := by
  obtain ⟨g, -, hc0⟩ := except_map_ok_inv hinit
  subst hc0
  exact (steps_linked hs ⟨by simp, by simp [linkedB]⟩).2

theorem chain_link_invariant_witness :
    linkedB (initChain [("7", 100)]).blocks = true :=
  chain_link_invariant 0 (some [("7", 100)]) (initChain [("7", 100)])
    (initChain [("7", 100)]) rfl (Steps.refl _)

/-- C6 (counterexample): on a submission whose sender has no balances
entry, `submit` does not fail closed with the validation error — the
balance lookup inside `validateTx` raises `KeyError`, a different error
kind, which escapes the call. -/
theorem unknown_sender_counterexample :
    (initChain [("9", 5)]).transact 0 7 "9" 1 (.int 0) none =
      (initChain [("9", 5)], some PyErr.keyError) ∧
    PyErr.keyError ≠ PyErr.valueError := by
  exact ⟨rfl, by decide⟩

/-- C6 (amended): a submission whose sender address has no entry in the
balances mapping makes `submit` raise `KeyError` (from the balance lookup
inside `validateTx`) rather than returning the `InvalidTransaction`
(`ValueError`) validation failure; the ledger state is left unchanged. -/
theorem unknown_sender_raises_keyerror (c : Chain) (m : Dict) (now : Int)
    (key : Nat) (t : String) (amount : Int) (msg : HVal) (mb : Bytes)
    (hm : c.addr = some m)
    (hmsg : encodeField msg = .ok mb)
    (h0 : 0 ≤ amount) (h1 : amount < Int.ofNat (2 ^ 1024))
    (hbal : dictGet m (key_to_public_hex key) = none) :
    c.transact now key t amount msg none = (c, some PyErr.keyError) :=
  transact_unknown_sender c m now key t amount msg mb hm hmsg h0 h1 hbal

theorem unknown_sender_raises_keyerror_witness :
    (initChain [("9", 5)]).transact 0 3 "9" 1 (.int 0) none =
      (initChain [("9", 5)], some PyErr.keyError) :=
  unknown_sender_raises_keyerror (initChain [("9", 5)]) [("9", 5)] 0 3 "9" 1
    (.int 0) (beBytes 128 (0 : Int).toNat) rfl rfl (by decide) (by decide) rfl

/-- C7 (counterexample): the amount `2 ^ 1024` is non-negative, yet
transaction construction fails (`OverflowError` from the 128-byte integer
serialization inside the content hash). -/
theorem nonnegative_amount_construction_fails :
    (0 : Int) ≤ Int.ofNat (2 ^ 1024) ∧
    Tx.init "a" "b" (Int.ofNat (2 ^ 1024)) (.int 0) = .error .overflowError := by
  constructor
  · decide
  · rfl

/-- C7 (amended): constructing a transaction fails for every negative
amount — but with the `OverflowError` raised by the hasher's fixed 128-byte
integer serialization, not a dedicated `InvalidAmount` check — and
succeeds, computing `content_hash` immediately, exactly for amounts in
`[0, 2 ^ 1024)` (with a hashable message). -/
theorem tx_construction_range (b t : String) (amount : Int) (msg : HVal)
    (mb : Bytes) :
    (amount < 0 → Tx.init b t amount msg = .error .overflowError) ∧
    (0 ≤ amount → amount < Int.ofNat (2 ^ 1024) → encodeField msg = .ok mb →
      Tx.init b t amount msg =
        .ok ⟨b, t, amount, msg, none,
          ⟨encodeStr b ++ (encodeStr t ++ (beBytes 128 amount.toNat ++ mb))⟩,
          none⟩) := by
  constructor
  · intro hneg
    simp [Tx.init, HASH, encodeFields, encodeField_str,
      encodeField_int_neg hneg, Except.map]
  · intro h0 h1 hmsg
    exact tx_init_ok b t amount msg mb h0 h1 hmsg

theorem tx_construction_range_witness :
    Tx.init "a" "b" (-1) (.int 0) = .error .overflowError ∧
    Tx.init "a" "b" 5 (.int 0) =
      .ok ⟨"a", "b", 5, .int 0, none,
        ⟨encodeStr "a" ++ (encodeStr "b" ++ (beBytes 128 (5 : Int).toNat ++
          beBytes 128 (0 : Int).toNat))⟩, none⟩ := by
  constructor
  · exact (tx_construction_range "a" "b" (-1) (.int 0)
      (beBytes 128 (0 : Int).toNat)).1 (by decide)
  · exact (tx_construction_range "a" "b" 5 (.int 0)
      (beBytes 128 (0 : Int).toNat)).2 (by decide) (by decide) rfl

/-- C8 (counterexample): the canonical hasher is not order-sensitive for
every pair of distinct values — hashing the strings `"ab"`, `""` in either
order feeds the same byte stream to the digest. -/
theorem hash_order_counterexample :
    HVal.str "ab" ≠ HVal.str "" ∧
    HASH [.str "ab", .str ""] = HASH [.str "", .str "ab"] := by
  constructor
  · decide
  · rfl

/-- C8 (amended): the hasher is order-sensitive whenever the two fields'
serialized byte encodings differ and have equal length (in particular for
any two distinct integers); sensitivity can fail when the encodings have
different lengths (e.g. `"ab"` vs `""`) or coincide across types. -/
theorem hash_order_sensitive (a b : HVal) (ba bb : Bytes)
    (ha : encodeField a = .ok ba) (hb : encodeField b = .ok bb)
    (hlen : ba.length = bb.length) (hne : ba ≠ bb) :
    HASH [a, b] ≠ HASH [b, a] := by
  rw [HASH_pair ha hb, HASH_pair hb ha]
  intro hcontra
  simp only [Except.ok.injEq, Digest.mk.injEq] at hcontra
  obtain ⟨h1, -⟩ := List.append_inj hcontra hlen
  exact hne h1

theorem hash_order_sensitive_witness :
    HASH [.str "a", .str "b"] ≠ HASH [.str "b", .str "a"] :=
  hash_order_sensitive (.str "a") (.str "b") (encodeStr "a") (encodeStr "b")
    rfl rfl (by decide) (by decide)

/-- C9: the comparison logic of `validateBlock` — applied to the header
values its attribute accesses actually require — is true exactly when the
`prevhash` matches the parent's hex header hash and the timestamp is not
older than the parent's.  (On `Block` arguments, as the parameter names
suggest, the source raises `AttributeError`: `Block` has no `prevhash` or
`timestamp` attribute; see the embedding note on `Chain.validateBlock`.) -/
theorem validateBlock_spec (h p : BlockHeader) :
    Chain.validateBlock h p = true ↔
      (h.prevhash = HVal.str p.hexhash ∧ p.timestamp ≤ h.timestamp) := by
  simp [Chain.validateBlock]

/-- C1 (counterexample): a valid self-transfer (sender `"7"` holds 100 ≥ 5,
receiver is the sender, the transaction is authentic and accepted) leaves
`balances[sender]` at 100, so `balances[sender] + amount = pre_balances[sender]`
fails: 100 + 5 ≠ 100. -/
theorem self_transfer_breaks_claimed_equations :
    ((initChain [("7", 100)]).transact 0 7 "7" 5 (.int 0) none).2 = none ∧
    addrGet (initChain [("7", 100)]) "7" = some 100 ∧
    addrGet ((initChain [("7", 100)]).transact 0 7 "7" 5 (.int 0) none).1 "7"
      = some 100 ∧
    ¬((100 : Int) + 5 = 100) := by
  exact ⟨rfl, rfl, rfl, by decide⟩

/-- C1 (amended): for every valid submission whose receiver differs from
the sender, the post-state balances satisfy
`balances[sender] = pre_balances[sender] - amount` (equivalently
`balances[sender] + amount = pre_balances[sender]`) and
`balances[receiver] = pre_balances.get(receiver, 0) + amount`, the
receiver's entry being created (defaulting to 0 before the credit) when
absent.  For a valid self-transfer the debit and credit cancel instead. -/
theorem transact_balance_update (c : Chain) (m : Dict) (bal now : Int)
    (key : Nat) (t : String) (amount : Int) (msg : HVal) (mb : Bytes)
    (hm : c.addr = some m)
    (hmsg : encodeField msg = .ok mb)
    (h0 : 0 ≤ amount) (h1 : amount < Int.ofNat (2 ^ 1024))
    (hbal : dictGet m (key_to_public_hex key) = some bal)
    (hge : amount ≤ bal)
    (hne : t ≠ key_to_public_hex key) :
    addrGet (c.transact now key t amount msg none).1 (key_to_public_hex key)
        = some (bal - amount) ∧
    addrGet (c.transact now key t amount msg none).1 t
        = some ((dictGet m t).getD 0 + amount) := by
  obtain ⟨tx, hby, hto, hamt, hmsg2, hth, heval⟩ :=
    transact_forward c m bal now key t amount msg mb hm hmsg h0 h1 hbal hge
  have haddr : (c.transact now key t amount msg none).1.addr
      = some (debitCredit m (key_to_public_hex key) t amount) := by
    rw [heval]
    by_cases hlim : (c.txs ++ [tx]).length = Chain.tx_limit
    · rw [if_pos hlim]
      exact addBlock_addr _ now
    · rw [if_neg hlim]
  constructor
  · simp only [addrGet, haddr, Option.some_bind]
    exact debitCredit_sender hbal hne
  · simp only [addrGet, haddr, Option.some_bind]
    exact debitCredit_receiver hbal hne

theorem transact_balance_update_witness :
    addrGet ((initChain [("7", 100)]).transact 0 7 "9" 5 (.int 0) none).1
        (key_to_public_hex 7) = some (100 - 5) ∧
    addrGet ((initChain [("7", 100)]).transact 0 7 "9" 5 (.int 0) none).1 "9"
      = some ((dictGet [("7", 100)] "9").getD 0 + 5) :=
  transact_balance_update (initChain [("7", 100)]) [("7", 100)] 100 0 7 "9" 5
    (.int 0) (beBytes 128 (0 : Int).toNat) rfl rfl (by decide) (by decide)
    rfl (by decide) (by decide)

/-- C5: starting from an initialized ledger with an empty pending buffer,
a run of exactly `tx_limit` (= 10) valid submissions is fully accepted,
produces exactly one new block whose header `roothash` is the left-fold
pairwise-hash aggregation (`hash_txs`) of the sealed batch of 10
transactions in admission order, clears the pending buffer, and no proper
prefix of the run produces any block. -/
theorem sealing_trigger (c : Chain) (rs : List SubReq)
    (hpend : c.txs = []) (hbne : c.blocks ≠ [])
    (hlen : rs.length = Chain.tx_limit)
    (hv : allValid c rs = true) :
    (runSubs c rs).2 = none ∧
    sealCheck c (runSubs c rs).1 = true ∧
    noEarlySeal c rs = true := by
  have hcount : c.txs.length + rs.length = Chain.tx_limit := by
    simp [hpend, hlen]
  have hsig : ∀ tx ∈ c.txs, tx.txhash.isSome = true := by
    simp [hpend]
  have hrsne : rs ≠ [] := by
    intro hcontra
    rw [hcontra] at hlen
    simp [Chain.tx_limit] at hlen
  obtain ⟨h1, h2, h3, ⟨nb, h4, h5, h6⟩, h7⟩ := seal_aux rs c hbne hsig hrsne hcount hv
  refine ⟨h1, ?_, ?_⟩
  · unfold sealCheck
    rw [h4]
    simp [h2, h3, h5, h6]
  · unfold noEarlySeal
    rw [List.all_eq_true]
    intro k hk
    have hk' : k < rs.length := List.mem_range.mp hk
    obtain ⟨hp1, hp2⟩ := h7 k hk'
    simp [hp1, hp2]

theorem sealing_trigger_witness :
    (runSubs (initChain [("7", 1000)]) c5batch).2 = none ∧
    sealCheck (initChain [("7", 1000)])
      (runSubs (initChain [("7", 1000)]) c5batch).1 = true ∧
    noEarlySeal (initChain [("7", 1000)]) c5batch = true :=
  sealing_trigger (initChain [("7", 1000)]) c5batch rfl (by decide) rfl
    (by decide)

/-- C10 (counterexample): after nine accepted submissions (pending holds
nine transactions, sender `"7"` holds 91 ≥ 5), an accepted self-transfer
leaves the balances identical — but it is the tenth admission, so the
buffer is sealed and the pending buffer is empty afterwards: the
transaction is not in the pending buffer after `submit` returns. -/
theorem self_transfer_at_seal_boundary :
    chain9.txs.length = 9 ∧
    addrGet chain9 "7" = some 91 ∧
    (chain9.transact 1 7 "7" 5 (.int 0) none).2 = none ∧
    (chain9.transact 1 7 "7" 5 (.int 0) none).1.txs = [] ∧
    addrGet (chain9.transact 1 7 "7" 5 (.int 0) none).1 "7" = some 91 := by
  exact ⟨rfl, rfl, rfl, rfl, rfl⟩

/-- C10 (amended): for every accepted self-transfer (receiver equal to the
sender's address, sender present with balance at least the amount), the
balances mapping after `submit` is identical to the one before (debit and
credit cancel); when the submission does not complete a batch the
transaction is appended to the pending buffer (when it does, the batch —
the transaction included — is sealed into the new block and pending is
cleared, as in the counterexample). -/
theorem self_transfer_cancels (c : Chain) (m : Dict) (bal now : Int)
    (key : Nat) (amount : Int) (msg : HVal) (mb : Bytes)
    (hm : c.addr = some m)
    (hmsg : encodeField msg = .ok mb)
    (h0 : 0 ≤ amount) (h1 : amount < Int.ofNat (2 ^ 1024))
    (hbal : dictGet m (key_to_public_hex key) = some bal)
    (hge : amount ≤ bal)
    (hlim : c.txs.length + 1 ≠ Chain.tx_limit) :
    (c.transact now key (key_to_public_hex key) amount msg none).2 = none ∧
    (c.transact now key (key_to_public_hex key) amount msg none).1.addr
      = c.addr ∧
    (c.transact now key (key_to_public_hex key) amount msg none).1.txs.length
      = c.txs.length + 1 ∧
    (c.transact now key (key_to_public_hex key) amount msg none).1.txs.dropLast
      = c.txs ∧
    (c.transact now key (key_to_public_hex key) amount msg none).1.blocks
      = c.blocks := by
  obtain ⟨tx, hby, hto, hamt, hmsg2, hth, heval⟩ :=
    transact_forward c m bal now key (key_to_public_hex key) amount msg mb
      hm hmsg h0 h1 hbal hge
  have hlim' : (c.txs ++ [tx]).length ≠ Chain.tx_limit := by
    simpa using hlim
  rw [heval, if_neg hlim']
  refine ⟨rfl, ?_, by simp, List.dropLast_concat, rfl⟩
  show some (debitCredit m (key_to_public_hex key) (key_to_public_hex key) amount)
    = c.addr
  rw [debitCredit_self hbal]
  exact hm.symm

theorem self_transfer_cancels_witness :
    ((initChain [("7", 100)]).transact 0 7 (key_to_public_hex 7) 5 (.int 0) none).2
      = none ∧
    ((initChain [("7", 100)]).transact 0 7 (key_to_public_hex 7) 5 (.int 0) none).1.addr
      = (initChain [("7", 100)]).addr ∧
    ((initChain [("7", 100)]).transact 0 7 (key_to_public_hex 7) 5 (.int 0) none).1.txs.length
      = (initChain [("7", 100)]).txs.length + 1 ∧
    ((initChain [("7", 100)]).transact 0 7 (key_to_public_hex 7) 5 (.int 0) none).1.txs.dropLast
      = (initChain [("7", 100)]).txs ∧
    ((initChain [("7", 100)]).transact 0 7 (key_to_public_hex 7) 5 (.int 0) none).1.blocks
      = (initChain [("7", 100)]).blocks :=
  self_transfer_cancels (initChain [("7", 100)]) [("7", 100)] 100 0 7 5
    (.int 0) (beBytes 128 (0 : Int).toNat) rfl rfl (by decide) (by decide)
    rfl (by decide) (by decide)
